import Mathlib

/-!
Verification of the core of a VLSM IPv4 subnet calculator.

The program is JavaScript; its core module exposes ipToInt, intToIp,
maskFromPrefix, wildcardFromPrefix, parseCidr, calcMinPrefixForHosts,
subnetInfo and allocateVlsm.  This file is a shallow embedding of that
module: JS numbers that can only hold integral values are modelled as Int,
JS numbers that can also be NaN are modelled as Option Int (none = NaN),
the 32-bit coercions ToInt32 / ToUint32 are explicit functions, and
functions that throw return Except String.  Field and function names follow
the source, except that names for the CIDR bit-length use prefixLen or Pfx
in place of the source spelling.
-/

/-- ToUint32 of an integral JS number: value modulo 2^32, in [0, 2^32). -/
def jsToUint32 (i : Int) : Int := i % 4294967296

/-- ToInt32 of an integral JS number: value modulo 2^32, in [-2^31, 2^31). -/
def jsToInt32 (i : Int) : Int :=
  if i % 4294967296 < 2147483648 then i % 4294967296
  else i % 4294967296 - 4294967296

/-- A JS number arising in this program: an integer, or NaN (none). -/
abbrev JsNum := Option Int

/-- ToInt32 on a possibly-NaN JS number (ToInt32 NaN = 0). -/
def JsNum.toI32 : JsNum → Int
  | none => 0
  | some i => jsToInt32 i

/-- ToUint32 on a possibly-NaN JS number (ToUint32 NaN = 0). -/
def JsNum.toU32 : JsNum → Int
  | none => 0
  | some i => jsToUint32 i

/-- JS addition on the integral-or-NaN fragment: NaN propagates. -/
def jsAdd : JsNum → JsNum → JsNum
  | some a, some b => some (a + b)
  | _, _ => none

/-- JS subtraction on the integral-or-NaN fragment: NaN propagates. -/
def jsSub : JsNum → JsNum → JsNum
  | some a, some b => some (a - b)
  | _, _ => none

/-- The JS left-shift a << b: ToInt32 the operand, shift by ToUint32 b
masked to 5 bits, reinterpret as Int32. -/
def jsShl (a b : JsNum) : Int :=
  jsToInt32 (JsNum.toI32 a * (2 : Int) ^ ((JsNum.toU32 b).toNat % 32))

/-- The JS bitwise AND a & b on integral values: ToInt32 both sides, AND
the 32-bit patterns, reinterpret as Int32. -/
def jsAnd (a b : Int) : Int :=
  jsToInt32 (Int.ofNat (Nat.land (jsToUint32 a).toNat (jsToUint32 b).toNat))

/-- The JS bitwise NOT of an integral value (before any >>> 0). -/
def jsNot (a : Int) : Int := -(jsToInt32 a) - 1

/-- The JS comparison a > b where either side may be NaN (then false). -/
def jsGtNum : JsNum → JsNum → Bool
  | some a, some b => decide (b < a)
  | _, _ => false

/-- The JS comparison a < b where either side may be NaN (then false). -/
def jsLtNum : JsNum → JsNum → Bool
  | some a, some b => decide (a < b)
  | _, _ => false

/-- Math.ceil (a / b) for an integer a and a positive power of two b
(the float division in the source is exact for such operands). -/
def ceilNum (a b : Int) : Int := -((-a) / b)

/-- JS String.prototype.split with a single-character separator,
on the character list of the string. -/
def splitOnChar (c : Char) : List Char → List (List Char)
  | [] => [[]]
  | x :: xs =>
    if x = c then [] :: splitOnChar c xs
    else
      match splitOnChar c xs with
      | [] => [[x]]
      | h :: t => (x :: h) :: t

/-- Whitespace skipped by JS parseInt (the forms relevant here). -/
def isWsChar (c : Char) : Bool := c == ' ' || c == '\t' || c == '\n' || c == '\r'

/-- Decimal digit test. -/
def isDigitChar (c : Char) : Bool := 48 ≤ c.toNat && c.toNat ≤ 57

/-- Value of a list of decimal digit characters, most significant first. -/
def digitsValNat (l : List Char) : Nat :=
  l.foldl (fun a c => a * 10 + (c.toNat - 48)) 0

/-- The digits phase of parseInt: longest leading run of decimal digits,
NaN (none) if there is none. -/
def parseDigits (l : List Char) : JsNum :=
  let ds := l.takeWhile isDigitChar
  if ds.isEmpty then none else some (Int.ofNat (digitsValNat ds))

/-- JS parseInt(s, 10): skip whitespace, optional sign, longest digit run;
NaN when no digits follow. -/
def jsParseInt (l : List Char) : JsNum :=
  match l.dropWhile isWsChar with
  | '-' :: rest =>
    (match parseDigits rest with
     | none => none
     | some v => some (-v))
  | '+' :: rest => parseDigits rest
  | t => parseDigits t

/-- Little-endian decimal digits of n, with explicit structural fuel. -/
def digitsRev : Nat → Nat → List Nat
  | _, 0 => []
  | 0, _ => []
  | f + 1, n + 1 => ((n + 1) % 10) :: digitsRev f ((n + 1) / 10)

/-- JS number-to-string for a nonnegative integer: its decimal digits. -/
def natToChars (n : Nat) : List Char :=
  if n = 0 then ['0']
  else ((digitsRev n n).reverse.map (fun d => Char.ofNat (48 + d)))

/-- One step of the reduce inside ipToInt: (acc << 8) + parseInt(octet, 10).
The shift turns a NaN accumulator into 0; a NaN octet makes the sum NaN. -/
def ipToIntStep (acc : JsNum) (oct : List Char) : JsNum :=
  match jsParseInt oct with
  | none => none
  | some v => some (jsShl acc (some 8) + v)

/-- The reduce inside ipToInt over the dot-separated groups. -/
def ipToIntNum (parts : List (List Char)) : JsNum :=
  parts.foldl ipToIntStep (some 0)

/-- ipToInt on a character list: split on '.', reduce, then >>> 0. -/
def ipToIntChars (l : List Char) : Int :=
  JsNum.toU32 (ipToIntNum (splitOnChar '.' l))

/-- ipToInt(ip): the source performs no validation at all. -/
def ipToInt (s : String) : Int := ipToIntChars s.data

/-- The octet (int >>> shift) & 0xFF extracted by intToIp. -/
def octetOf (n : Int) (sh : Nat) : Nat := ((jsToUint32 n).toNat / 2 ^ sh) % 256

/-- intToIp(int) as a character list: the four octets, dot-joined. -/
def intToIpChars (n : Int) : List Char :=
  natToChars (octetOf n 24) ++ '.' ::
  (natToChars (octetOf n 16) ++ '.' ::
  (natToChars (octetOf n 8) ++ '.' :: natToChars (octetOf n 0)))

/-- intToIp(int). -/
def intToIp (n : Int) : String := String.mk (intToIpChars n)

/-- The 32-bit mask value (prefix === 0) ? 0 : (0xFFFFFFFF << (32 - prefix)) >>> 0,
where the prefix may be NaN. -/
def maskOfPfxNum (p : JsNum) : Int :=
  if p = some 0 then 0
  else jsToUint32 (jsShl (some 4294967295) (jsSub (some 32) p))

/-- The mask value for an integral prefix (shared by maskFromPrefix,
wildcardFromPrefix and subnetInfo). -/
def maskValue (p : Int) : Int := maskOfPfxNum (some p)

/-- The wildcard value (~mask) >>> 0 computed by wildcardFromPrefix. -/
def wildcardValue (p : Int) : Int := jsToUint32 (jsNot (maskValue p))

/-- maskFromPrefix(prefix): the dotted-decimal text of the mask value. -/
def maskFromPfx (p : Int) : String := intToIp (maskValue p)

/-- wildcardFromPrefix(prefix): the dotted-decimal text of the wildcard. -/
def wildcardFromPfx (p : Int) : String := intToIp (wildcardValue p)

/-- The canonical tuple returned by parseCidr.  networkInt is the signed
Int32 result of the bitwise AND; the prefix and total may be NaN. -/
structure ParsedCidr where
  networkInt : Int
  prefixNum : JsNum
  total : JsNum
  broadcastInt : Int
deriving Repr, DecidableEq

/-- parseCidr(cidr): split on '/', require two parts, range-check the
parsed prefix (a NaN prefix passes both comparisons), mask the address,
and derive total and broadcast. -/
def parseCidr (cidr : String) : Except String ParsedCidr :=
  match splitOnChar '/' cidr.data with
  | [ip, pTxt] =>
    let p := jsParseInt pTxt
    if jsLtNum p (some 0) || jsGtNum p (some 32) then Except.error "Invalid prefix"
    else
      let networkInt := jsAnd (ipToIntChars ip) (maskOfPfxNum p)
      let total : JsNum :=
        match p with
        | some v => some ((2 : Int) ^ ((32 - v).toNat))
        | none => none
      let broadcastInt := JsNum.toU32 (jsSub (jsAdd (some networkInt) total) (some 1))
      Except.ok ⟨networkInt, p, total, broadcastInt⟩
  | _ => Except.error "Invalid CIDR"

/-- The usable-host capacity of a prefix, as computed inside the scan of
calcMinPrefixForHosts: /32 has 1, /31 has 0, otherwise blockSize - 2. -/
def usableOf (p : Int) : Int :=
  if p = 32 then 1 else if p = 31 then 0 else (2 : Int) ^ ((32 - p).toNat) - 2

/-- The scan of calcMinPrefixForHosts: try the given prefix, then count
down towards 0; return the first prefix whose capacity reaches hosts. -/
def calcScanDown (hosts : Int) : Nat → Option Int
  | 0 => if hosts ≤ usableOf 0 then some 0 else none
  | p + 1 =>
    if hosts ≤ usableOf ((p : Int) + 1) then some ((p : Int) + 1)
    else calcScanDown hosts p

/-- calcMinPrefixForHosts(hosts).  Number.isInteger always holds for an
Int, so only the sign check of the source guard remains. -/
def calcMinPrefixForHosts (hosts : Int) : Except String Int :=
  if hosts < 0 then Except.error "hosts must be non-negative integer"
  else if hosts = 0 then Except.ok 32
  else
    match calcScanDown hosts 32 with
    | some p => Except.ok p
    | none => Except.error "cannot satisfy host count"

/-- The output record of subnetInfo, with the source field set.
prefixLen embeds the source field holding the CIDR bit-length. -/
structure SubnetRecord where
  network : String
  prefixLen : Int
  cidr : String
  subnet_mask : String
  wildcard_mask : String
  total_addresses : Int
  usable_hosts : Int
  requested_hosts : Int
  first_usable : String
  last_usable : String
  broadcast : String
  wasted_addresses : Int
deriving Repr, DecidableEq

/-- subnetInfo(networkInt, prefix, requestedHosts): derive the full
descriptive record, with the /32 and /31 special cases of the source. -/
def subnetInfo (networkInt : Int) (prefixLen : Int) (requestedHosts : Int) : SubnetRecord :=
  let total : Int := (2 : Int) ^ ((32 - prefixLen).toNat)
  let broadcastI : Int := jsToUint32 (networkInt + total - 1)
  let mask := maskFromPfx prefixLen
  let wildcard := wildcardFromPfx prefixLen
  let net := intToIp networkInt
  let cidrTxt := net ++ "/" ++ toString prefixLen
  if prefixLen = 32 then
    { network := net, prefixLen := prefixLen, cidr := cidrTxt,
      subnet_mask := mask, wildcard_mask := wildcard,
      total_addresses := total, usable_hosts := 1,
      requested_hosts := requestedHosts,
      first_usable := net, last_usable := net, broadcast := net,
      wasted_addresses := total - requestedHosts }
  else if prefixLen = 31 then
    { network := net, prefixLen := prefixLen, cidr := cidrTxt,
      subnet_mask := mask, wildcard_mask := wildcard,
      total_addresses := total, usable_hosts := 0,
      requested_hosts := requestedHosts,
      first_usable := net, last_usable := intToIp broadcastI,
      broadcast := intToIp broadcastI,
      wasted_addresses := total - requestedHosts }
  else
    { network := net, prefixLen := prefixLen, cidr := cidrTxt,
      subnet_mask := mask, wildcard_mask := wildcard,
      total_addresses := total, usable_hosts := total - 2,
      requested_hosts := requestedHosts,
      first_usable := intToIp (jsToUint32 (networkInt + 1)),
      last_usable := intToIp (jsToUint32 (broadcastI - 1)),
      broadcast := intToIp broadcastI,
      wasted_addresses := total - requestedHosts }

/-- A resolved requirement: requested hosts, derived bit-length, block size. -/
structure Req where
  requested : Int
  prefixLen : Int
  block : Int
deriving Repr, DecidableEq

/-- The per-requirement map inside allocateVlsm: validate positivity,
derive the minimal prefix and the block size. -/
def mkReq (h : Int) : Except String Req :=
  if h ≤ 0 then Except.error "host requirements must be positive integers"
  else
    match calcMinPrefixForHosts h with
    | Except.error e => Except.error e
    | Except.ok p => Except.ok ⟨h, p, (2 : Int) ^ ((32 - p).toNat)⟩

/-- The .map over hostRequirements, which throws on the first bad entry. -/
def buildReqs : List Int → Except String (List Req)
  | [] => Except.ok []
  | h :: t =>
    match mkReq h with
    | Except.error e => Except.error e
    | Except.ok r =>
      match buildReqs t with
      | Except.error e => Except.error e
      | Except.ok rest => Except.ok (r :: rest)

/-- The sort comparator (a, b) => b.requested - a.requested || a.prefix - b.prefix,
as the relation that holds when a may come before b. -/
def reqOrder (a b : Req) : Prop :=
  b.requested < a.requested ∨ (a.requested = b.requested ∧ a.prefixLen ≤ b.prefixLen)

instance : DecidableRel reqOrder := fun a b => by
  unfold reqOrder; infer_instance

instance : IsTotal Req reqOrder :=
  ⟨fun a b => by unfold reqOrder; omega⟩

instance : IsTrans Req reqOrder :=
  ⟨fun a b c hab hbc => by unfold reqOrder at *; omega⟩

/-- Well-formedness of a resolved requirement as built by mkReq. -/
def ReqWF (r : Req) : Prop :=
  1 ≤ r.requested ∧ calcMinPrefixForHosts r.requested = Except.ok r.prefixLen ∧
  r.block = (2 : Int) ^ ((32 - r.prefixLen).toNat)

/-- The placement walk of allocateVlsm: align the cursor up to the block
boundary, bounds-check against the primary range, emit the record, advance. -/
def placeLoop (pS pE : Int) : List Req → Int → List SubnetRecord →
    Except String (List SubnetRecord)
  | [], _, allocs => Except.ok allocs
  | r :: rest, current, allocs =>
    let alignedStart := jsToUint32 (ceilNum current r.block * r.block)
    if jsToUint32 (alignedStart + r.block - 1) > pE then
      Except.error "Cannot allocate subnet: not enough space after alignment"
    else if alignedStart < pS ∨ jsToUint32 (alignedStart + r.block - 1) > pE then
      Except.error "Allocated network falls outside primary"
    else
      placeLoop pS pE rest (jsToUint32 (alignedStart + r.block))
        (allocs ++ [subnetInfo alignedStart r.prefixLen r.requested])

/-- One overlap test of the final defensive check:
true when the two address ranges are disjoint. -/
def pairDisjoint (a b : SubnetRecord) : Bool :=
  let aStart := ipToInt a.network
  let aEnd := aStart + a.total_addresses - 1
  let bStart := ipToInt b.network
  let bEnd := bStart + b.total_addresses - 1
  decide (aEnd < bStart) || decide (bEnd < aStart)

/-- The exhaustive pairwise overlap verification (i < j double loop). -/
def overlapFree : List SubnetRecord → Bool
  | [] => true
  | a :: rest => rest.all (pairDisjoint a) && overlapFree rest

/-- allocateVlsm(primaryCidr, hostRequirements). -/
def allocateVlsm (primaryCidr : String) (hostRequirements : List Int) :
    Except String (List SubnetRecord) :=
  match parseCidr primaryCidr with
  | Except.error e => Except.error e
  | Except.ok primary =>
    match buildReqs hostRequirements with
    | Except.error e => Except.error e
    | Except.ok reqs0 =>
      let reqs := List.insertionSort reqOrder reqs0
      let sumBlocks := reqs.foldl (fun s r => s + r.block) 0
      if jsGtNum (some sumBlocks) primary.total then
        Except.error "Requirements need more addresses than primary has"
      else
        match placeLoop primary.networkInt primary.broadcastInt reqs
            primary.networkInt [] with
        | Except.error e => Except.error e
        | Except.ok allocations =>
          if overlapFree allocations then Except.ok allocations
          else Except.error "Overlap between allocations"

/-- The projection of a record checked by the concrete scenarios:
network text, bit-length, total addresses, usable hosts. -/
def recProj (r : SubnetRecord) : String × Int × Int × Int :=
  (r.network, r.prefixLen, r.total_addresses, r.usable_hosts)

/-- The projection checked by the placement-order scenario:
network text, bit-length, requested hosts. -/
def recProjOrder (r : SubnetRecord) : String × Int × Int :=
  (r.network, r.prefixLen, r.requested_hosts)

/-- Modelled from the spec: parseAddress as section 4.1 words it (the repo
function ipToInt does not validate, so the spec behaviour is modelled
separately for comparison): exactly 4 dot-separated decimal octet groups,
each in the range 0..255, combined big-endian; otherwise failure. -/
def parseAddressSpec (s : String) : Option Int :=
  match splitOnChar '.' s.data with
  | [a, b, c, d] =>
    if [a, b, c, d].all
        (fun g => !g.isEmpty && g.all isDigitChar && decide (digitsValNat g ≤ 255)) then
      some ((digitsValNat a : Int) * 16777216 + (digitsValNat b : Int) * 65536 +
            (digitsValNat c : Int) * 256 + (digitsValNat d : Int))
    else none
  | _ => none

/-- The placement that the allocator performs when every block divides the
cursor: each subnet starts exactly at the cursor and the cursor advances by
the block size.  Used to state the forward-motion invariant. -/
def tightPlace : List Req → Int → List SubnetRecord
  | [], _ => []
  | r :: rest, uc => subnetInfo uc r.prefixLen r.requested :: tightPlace rest (uc + r.block)

/-!  Concrete scenario theorems. -/

/-- C2 counterexample: the claim says minimalPrefixFor(1) returns 30, but
calcMinPrefixForHosts(1) returns 32 (the scan starts at /32, whose usable
capacity 1 already reaches 1 host). -/
theorem calcMin_one_not_thirty :
    calcMinPrefixForHosts 1 = Except.ok 32 ∧ (32 : Int) ≠ 30 :=
  ⟨rfl, by decide⟩

/-- C2 amended: minimalPrefixFor returns 32 for host count 0, 32 for host
count 1, and 30 for host count 2. -/
theorem calcMin_small_hosts :
    calcMinPrefixForHosts 0 = Except.ok 32 ∧
    calcMinPrefixForHosts 1 = Except.ok 32 ∧
    calcMinPrefixForHosts 2 = Except.ok 30 :=
  ⟨rfl, rfl, rfl⟩

/-- C3 counterexample: the claim says allocate("192.168.1.0/30", [2]) fails
with InsufficientAddressSpace; in fact the required /30 block (4 addresses)
equals the primary capacity exactly, the capacity check 4 > 4 is false, and
the call succeeds. -/
theorem allocate_slash30_two_hosts_succeeds :
    allocateVlsm "192.168.1.0/30" [2] = Except.ok [subnetInfo 3232235776 30 2] :=
  rfl

/-- C3 amended: allocate("192.168.1.0/30", [2]) succeeds and returns one
record with network 192.168.1.0, prefix 30, 4 total addresses, 2 usable. -/
theorem allocate_slash30_two_hosts_record :
    (allocateVlsm "192.168.1.0/30" [2]).map (List.map recProj) =
      Except.ok [("192.168.1.0", 30, 4, 2)] :=
  rfl

/-- C6: allocate("192.168.0.0/24", [50, 20, 10]) returns exactly three
records in order: 192.168.0.0 at /26 (64 total, 62 usable), 192.168.0.64
at /27 (32 total, 30 usable), 192.168.0.96 at /28 (16 total, 14 usable). -/
theorem allocate_scenario_a :
    (allocateVlsm "192.168.0.0/24" [50, 20, 10]).map (List.map recProj) =
      Except.ok [("192.168.0.0", 26, 64, 62),
                 ("192.168.0.64", 27, 32, 30),
                 ("192.168.0.96", 28, 16, 14)] :=
  rfl

/-- C5 counterexample: the claim says parseCidr fails with InvalidPrefix
whenever the prefix text denotes no integer in [0, 32]; but for the
non-numeric prefix text x, parseInt yields NaN, both range comparisons are
false, and parseCidr succeeds with a NaN prefix and total. -/
theorem parseCidr_nan_prefix_succeeds :
    parseCidr "1.2.3.4/x" = Except.ok ⟨16909060, none, none, 0⟩ :=
  rfl

/-- C4 counterexample: the claim says parseAddress fails with
InvalidAddressFormat on a wrong octet count; the spec-modelled parser
indeed rejects the 3-group text 1.2.3, but the repo ipToInt performs no
validation and returns the value 66051. -/
theorem ipToInt_no_validation :
    parseAddressSpec "1.2.3" = none ∧ ipToInt "1.2.3" = 66051 :=
  ⟨rfl, rfl⟩

/-!  Arithmetic facts about the 32-bit coercions. -/

theorem jsToUint32_of_range (a : Int) (h0 : 0 ≤ a) (h1 : a < 4294967296) :
    jsToUint32 a = a :=
  Int.emod_eq_of_lt h0 h1

theorem jsToUint32_nonneg (a : Int) : 0 ≤ jsToUint32 a := by
  unfold jsToUint32; omega

theorem jsToUint32_lt (a : Int) : jsToUint32 a < 4294967296 := by
  unfold jsToUint32; omega

theorem jsToUint32_idem (a : Int) : jsToUint32 (jsToUint32 a) = jsToUint32 a :=
  jsToUint32_of_range _ (jsToUint32_nonneg a) (jsToUint32_lt a)

theorem jsToInt32_of_small (a : Int) (h0 : 0 ≤ a) (h1 : a < 2147483648) :
    jsToInt32 a = a := by
  unfold jsToInt32; split <;> omega

theorem jsToUint32_jsToInt32 (a : Int) :
    jsToUint32 (jsToInt32 a) = jsToUint32 a := by
  unfold jsToInt32 jsToUint32; split <;> omega

/-- The final >>> 0 of ipToInt applied to (acc << 8) + octet, when the
true value fits in 32 bits. -/
theorem jsToUint32_jsToInt32_add (V o : Int) (hV : 0 ≤ V) (ho : 0 ≤ o)
    (hs : V + o < 4294967296) : jsToUint32 (jsToInt32 V + o) = V + o := by
  unfold jsToInt32 jsToUint32; split <;> omega

/-!  Decimal digit printing and parsing round-trip. -/

theorem digitsRev_eq : ∀ (f n : Nat), n ≤ f → digitsRev f n = Nat.digits 10 n := by
  intro f
  induction f with
  | zero =>
    intro n hn
    have : n = 0 := by omega
    subst this; simp [digitsRev]
  | succ f ih =>
    intro n hn
    match n with
    | 0 => simp [digitsRev]
    | m + 1 =>
      have hdiv : (m + 1) / 10 < m + 1 := Nat.div_lt_self (Nat.succ_pos m) (by norm_num)
      have hle : (m + 1) / 10 ≤ f := by omega
      show ((m + 1) % 10) :: digitsRev f ((m + 1) / 10) = _
      rw [Nat.digits_def' (by norm_num : (1 : ℕ) < 10) (Nat.succ_pos m), ih _ hle]

theorem charOfDigit_toNat (d : Nat) (h : d < 10) :
    (Char.ofNat (48 + d)).toNat = 48 + d := by
  interval_cases d <;> decide

theorem natToChars_mem_range (n : Nat) :
    ∀ c ∈ natToChars n, 48 ≤ c.toNat ∧ c.toNat ≤ 57 := by
  intro c hc
  unfold natToChars at hc
  split at hc
  · simp only [List.mem_singleton] at hc
    subst hc; decide
  · simp only [List.mem_map, List.mem_reverse] at hc
    obtain ⟨d, hd, rfl⟩ := hc
    rw [digitsRev_eq n n le_rfl] at hd
    have hdlt : d < 10 := Nat.digits_lt_base (by norm_num) hd
    rw [charOfDigit_toNat d hdlt]
    omega

theorem natToChars_ne_nil (n : Nat) : natToChars n ≠ [] := by
  unfold natToChars
  split
  · simp
  · rename_i hn
    rw [digitsRev_eq n n le_rfl]
    simp only [ne_eq, List.map_eq_nil_iff, List.reverse_eq_nil_iff]
    exact Nat.digits_ne_nil_iff_ne_zero.mpr hn

theorem takeWhile_of_all {p : Char → Bool} :
    ∀ l : List Char, (∀ c ∈ l, p c = true) → l.takeWhile p = l := by
  intro l
  induction l with
  | nil => intro _; rfl
  | cons c cs ih =>
    intro h
    rw [List.takeWhile_cons, h c (List.mem_cons_self c cs), if_pos rfl]
    rw [ih (fun x hx => h x (List.mem_cons_of_mem _ hx))]

theorem digitsVal_map_ofDigit : ∀ (ds : List Nat) (init : Nat),
    (∀ d ∈ ds, d < 10) →
    List.foldl (fun a c => a * 10 + (c.toNat - 48)) init
      (ds.map fun d => Char.ofNat (48 + d)) =
    List.foldl (fun a d => a * 10 + d) init ds := by
  intro ds
  induction ds with
  | nil => intro _ _; rfl
  | cons d t ih =>
    intro init h
    simp only [List.map_cons, List.foldl_cons]
    rw [charOfDigit_toNat d (h d (List.mem_cons_self d t))]
    have he : 48 + d - 48 = d := by omega
    rw [he]
    exact ih _ (fun x hx => h x (List.mem_cons_of_mem _ hx))

theorem foldl_rev_eq_ofDigits : ∀ ds : List Nat,
    List.foldl (fun a d => a * 10 + d) 0 ds.reverse = Nat.ofDigits 10 ds := by
  intro ds
  rw [List.foldl_reverse]
  induction ds with
  | nil => rfl
  | cons d t ih =>
    rw [List.foldr_cons, ih, Nat.ofDigits_cons]
    ring

theorem digitsValNat_natToChars (n : Nat) : digitsValNat (natToChars n) = n := by
  unfold natToChars digitsValNat
  split
  · subst_eqs; rfl
  · rw [digitsRev_eq n n le_rfl]
    rw [digitsVal_map_ofDigit _ 0
        (fun d hd => Nat.digits_lt_base (by norm_num)
          (List.mem_reverse.mp hd))]
    rw [foldl_rev_eq_ofDigits, Nat.ofDigits_digits]

theorem jsParseInt_natToChars (n : Nat) :
    jsParseInt (natToChars n) = some (Int.ofNat n) := by
  obtain ⟨c, cs, hcc⟩ := List.exists_cons_of_ne_nil (natToChars_ne_nil n)
  have hdig := natToChars_mem_range n
  have hc : 48 ≤ c.toNat ∧ c.toNat ≤ 57 := hdig c (hcc ▸ List.mem_cons_self c cs)
  have hws : isWsChar c = false := by
    simp only [isWsChar, Bool.or_eq_false_iff, beq_eq_false_iff_ne, ne_eq]
    refine ⟨⟨⟨?_, ?_⟩, ?_⟩, ?_⟩ <;>
      · intro h; rw [h] at hc; revert hc; decide
  have hall : ∀ x ∈ c :: cs, isDigitChar x = true := by
    intro x hx
    have := hdig x (hcc ▸ hx)
    simp only [isDigitChar, Bool.and_eq_true, decide_eq_true_eq]
    omega
  have hpd : parseDigits (c :: cs) = some (Int.ofNat n) := by
    unfold parseDigits
    rw [takeWhile_of_all _ hall]
    simp only [List.isEmpty_cons, Bool.false_eq_true, if_false]
    rw [← hcc, digitsValNat_natToChars]
  have hcm : c ≠ '-' := by
    intro h; rw [h] at hc; revert hc; decide
  have hcp : c ≠ '+' := by
    intro h; rw [h] at hc; revert hc; decide
  rw [hcc]
  unfold jsParseInt
  rw [List.dropWhile_cons, hws]
  simp only [Bool.false_eq_true, if_false]
  split
  · rename_i heq
    exact absurd (List.head_eq_of_cons_eq heq.symm).symm hcm
  · rename_i heq
    exact absurd (List.head_eq_of_cons_eq heq.symm).symm hcp
  · exact hpd

theorem splitOnChar_cons (c x : Char) (xs : List Char) :
    splitOnChar c (x :: xs) =
      if x = c then [] :: splitOnChar c xs
      else
        match splitOnChar c xs with
        | [] => [[x]]
        | h :: t => (x :: h) :: t := rfl

theorem splitOnChar_append_sep (c : Char) :
    ∀ (a rest : List Char), c ∉ a →
      splitOnChar c (a ++ c :: rest) = a :: splitOnChar c rest := by
  intro a
  induction a with
  | nil =>
    intro rest _
    rw [List.nil_append, splitOnChar_cons, if_pos rfl]
  | cons x a' ih =>
    intro rest hn
    have hx : x ≠ c := fun h => hn (h ▸ List.mem_cons_self x a')
    have hA : c ∉ a' := fun h => hn (List.mem_cons_of_mem _ h)
    rw [List.cons_append, splitOnChar_cons, if_neg hx, ih rest hA]

theorem splitOnChar_no_sep (c : Char) :
    ∀ (a : List Char), c ∉ a → splitOnChar c a = [a] := by
  intro a
  induction a with
  | nil => intro _; rfl
  | cons x a' ih =>
    intro hn
    have hx : x ≠ c := fun h => hn (h ▸ List.mem_cons_self x a')
    have hA : c ∉ a' := fun h => hn (List.mem_cons_of_mem _ h)
    rw [splitOnChar_cons, if_neg hx, ih hA]

/-- The value of the ipToInt reduce on exactly four octet groups whose
parseInt values lie in [0, 256). -/
theorem ipToIntNum_four (p0 p1 p2 p3 : List Char) (o0 o1 o2 o3 : Int)
    (h0 : jsParseInt p0 = some o0) (h1 : jsParseInt p1 = some o1)
    (h2 : jsParseInt p2 = some o2) (h3 : jsParseInt p3 = some o3)
    (b0 : 0 ≤ o0) (b0h : o0 < 256) (b1 : 0 ≤ o1) (b1h : o1 < 256)
    (b2 : 0 ≤ o2) (b2h : o2 < 256) (b3 : 0 ≤ o3) (b3h : o3 < 256) :
    JsNum.toU32 (ipToIntNum [p0, p1, p2, p3]) =
      o0 * 16777216 + o1 * 65536 + o2 * 256 + o3 := by
  have sstep : ∀ (a : JsNum) (p : List Char) (o : Int), jsParseInt p = some o →
      ipToIntStep a p = some (jsShl a (some 8) + o) := by
    intro a p o h; unfold ipToIntStep; rw [h]
  have hv8 : ∀ a : Int, 0 ≤ a → a < 2147483648 →
      jsShl (some a) (some 8) = jsToInt32 (a * 256) := by
    intro a ha hb
    show jsToInt32 (jsToInt32 a * 256) = jsToInt32 (a * 256)
    rw [jsToInt32_of_small a ha hb]
  have hv8s : ∀ a : Int, 0 ≤ a → a < 8388608 →
      jsShl (some a) (some 8) = a * 256 := by
    intro a ha hb
    rw [hv8 a ha (by omega), jsToInt32_of_small _ (by omega) (by omega)]
  have hz : jsShl (some 0) (some 8) = 0 := by decide
  simp only [ipToIntNum, List.foldl_cons, List.foldl_nil]
  rw [sstep _ _ _ h0, sstep _ _ _ h1, sstep _ _ _ h2, sstep _ _ _ h3]
  rw [hz, zero_add, hv8s o0 b0 (by omega),
    hv8s (o0 * 256 + o1) (by omega) (by omega),
    hv8 ((o0 * 256 + o1) * 256 + o2) (by omega) (by omega)]
  simp only [JsNum.toU32]
  rw [jsToUint32_jsToInt32_add (((o0 * 256 + o1) * 256 + o2) * 256) o3
    (by omega) b3 (by omega)]
  ring

theorem octetOf_lt (n : Int) (sh : Nat) : octetOf n sh < 256 :=
  Nat.mod_lt _ (by norm_num)

/-- Formatting then parsing an address value is the identity: the repo
overlap check re-derives each record start through this round-trip. -/
theorem ipToInt_intToIp (n : Int) (h0 : 0 ≤ n) (h1 : n < 4294967296) :
    ipToInt (intToIp n) = n := by
  have hnot : ∀ m : Nat, '.' ∉ natToChars m := by
    intro m hm
    have := natToChars_mem_range m _ hm
    revert this; decide
  show ipToIntChars (intToIpChars n) = n
  unfold ipToIntChars intToIpChars
  rw [splitOnChar_append_sep _ _ _ (hnot _), splitOnChar_append_sep _ _ _ (hnot _),
    splitOnChar_append_sep _ _ _ (hnot _), splitOnChar_no_sep _ _ (hnot _)]
  have hparse : ∀ m : Nat, jsParseInt (natToChars m) = some ((m : Nat) : Int) := by
    intro m; rw [jsParseInt_natToChars]; rfl
  rw [ipToIntNum_four _ _ _ _
    ((octetOf n 24 : Nat) : Int) ((octetOf n 16 : Nat) : Int)
    ((octetOf n 8 : Nat) : Int) ((octetOf n 0 : Nat) : Int)
    (hparse _) (hparse _) (hparse _) (hparse _)
    (Int.natCast_nonneg _) (by have := octetOf_lt n 24; omega)
    (Int.natCast_nonneg _) (by have := octetOf_lt n 16; omega)
    (Int.natCast_nonneg _) (by have := octetOf_lt n 8; omega)
    (Int.natCast_nonneg _) (by have := octetOf_lt n 0; omega)]
  unfold octetOf
  rw [jsToUint32_of_range n h0 h1]
  obtain ⟨u, hu⟩ : ∃ u : Nat, n = (u : Int) := ⟨n.toNat, (Int.toNat_of_nonneg h0).symm⟩
  subst hu
  simp only [Int.toNat_natCast, Nat.div_one]
  have hlt : u < 4294967296 := by omega
  omega

/-- C4 amended: ipToInt never fails; on a text whose dot-split has exactly
four groups, each parsing to an octet value in [0, 255], it returns the
32-bit big-endian combination of the octets.  On any other text it still
returns a numeric value (no validation), as the counterexample shows. -/
theorem ipToInt_four_octets (s : String) (p0 p1 p2 p3 : List Char)
    (o0 o1 o2 o3 : Int)
    (hs : splitOnChar '.' s.data = [p0, p1, p2, p3])
    (h0 : jsParseInt p0 = some o0) (h1 : jsParseInt p1 = some o1)
    (h2 : jsParseInt p2 = some o2) (h3 : jsParseInt p3 = some o3)
    (b0 : 0 ≤ o0 ∧ o0 ≤ 255) (b1 : 0 ≤ o1 ∧ o1 ≤ 255)
    (b2 : 0 ≤ o2 ∧ o2 ≤ 255) (b3 : 0 ≤ o3 ∧ o3 ≤ 255) :
    ipToInt s = o0 * 16777216 + o1 * 65536 + o2 * 256 + o3 := by
  unfold ipToInt ipToIntChars
  rw [hs]
  exact ipToIntNum_four p0 p1 p2 p3 o0 o1 o2 o3 h0 h1 h2 h3
    b0.1 (by omega) b1.1 (by omega) b2.1 (by omega) b3.1 (by omega)

theorem ipToInt_four_octets_witness : ipToInt "1.2.3.4" = 16909060 := by
  have h := ipToInt_four_octets "1.2.3.4" ['1'] ['2'] ['3'] ['4']
    1 2 3 4 (by decide) (by decide) (by decide) (by decide) (by decide)
    (by decide) (by decide) (by decide) (by decide)
  exact h.trans (by norm_num)

/-- C5 amended: on a two-part slash-split, parseCidr fails with the
InvalidPrefix error exactly when parseInt turns the prefix text into a
number outside [0, 32]; a non-numeric prefix text parses to NaN, passes
both range comparisons and is accepted. -/
theorem parseCidr_invalidPrefix_iff (s : String) (a p : List Char)
    (hs : splitOnChar '/' s.data = [a, p]) :
    (parseCidr s = Except.error "Invalid prefix" ↔
      ∃ v, jsParseInt p = some v ∧ (v < 0 ∨ 32 < v)) := by
  unfold parseCidr
  rw [hs]
  cases hjp : jsParseInt p with
  | none =>
    simp only [hjp, jsLtNum, jsGtNum, Bool.or_self, Bool.false_eq_true, if_false]
    constructor
    · intro h; cases h
    · rintro ⟨v, hv, _⟩; cases hv
  | some v =>
    by_cases hv : v < 0 ∨ 32 < v
    · have hcond : (jsLtNum (some v) (some 0) || jsGtNum (some v) (some 32)) = true := by
        simp only [jsLtNum, jsGtNum, Bool.or_eq_true, decide_eq_true_eq]
        omega
      simp only [hjp, hcond, if_true]
      constructor
      · intro _; exact ⟨v, rfl, hv⟩
      · intro _; trivial
    · have hcond : (jsLtNum (some v) (some 0) || jsGtNum (some v) (some 32)) = false := by
        simp only [jsLtNum, jsGtNum, Bool.or_eq_false_iff, decide_eq_false_iff_not]
        omega
      simp only [hjp, hcond, Bool.false_eq_true, if_false]
      constructor
      · intro h; cases h
      · rintro ⟨v', hv', hcmp⟩
        cases hv'
        exact absurd hcmp hv

theorem parseCidr_invalidPrefix_witness :
    parseCidr "1.2.3.4/33" = Except.error "Invalid prefix" :=
  (parseCidr_invalidPrefix_iff "1.2.3.4/33"
    ['1', '.', '2', '.', '3', '.', '4'] ['3', '3'] (by decide)).mpr
    ⟨33, by decide, by decide⟩

/-- C8: for every prefix p in [0, 32], the 32-bit mask and wildcard values
are exact complements: their bitwise AND is 0 and their bitwise OR is
0xFFFFFFFF. -/
theorem mask_wildcard_complement (p : Int) (h0 : 0 ≤ p) (h1 : p ≤ 32) :
    Nat.land (maskValue p).toNat (wildcardValue p).toNat = 0 ∧
    Nat.lor (maskValue p).toNat (wildcardValue p).toNat = 4294967295 := by
  interval_cases p <;> exact ⟨by decide, by decide⟩

theorem mask_wildcard_complement_witness :
    Nat.land (maskValue 24).toNat (wildcardValue 24).toNat = 0 ∧
    Nat.lor (maskValue 24).toNat (wildcardValue 24).toNat = 4294967295 :=
  mask_wildcard_complement 24 (by norm_num) (by norm_num)

/-!  Properties of the prefix scan and of the record constructor. -/

theorem calcScanDown_sound (h : Int) :
    ∀ (f : Nat) (p : Int), calcScanDown h f = some p →
      0 ≤ p ∧ p ≤ (f : Int) ∧ h ≤ usableOf p := by
  intro f
  induction f with
  | zero =>
    intro p hp
    unfold calcScanDown at hp
    split at hp
    · cases hp; refine ⟨le_refl 0, le_refl 0, by assumption⟩
    · cases hp
  | succ f ih =>
    intro p hp
    unfold calcScanDown at hp
    split at hp
    · cases hp
      rename_i hcond
      refine ⟨by omega, le_refl _, by exact_mod_cast hcond⟩
    · obtain ⟨h1, h2, h3⟩ := ih p hp
      exact ⟨h1, by push_cast; omega, h3⟩

theorem calcScanDown_min (h : Int) :
    ∀ (f : Nat) (p : Int), calcScanDown h f = some p →
      ∀ q : Int, p < q → q ≤ (f : Int) → usableOf q < h := by
  intro f
  induction f with
  | zero =>
    intro p hp q hq1 hq2
    obtain ⟨h1, h2, _⟩ := calcScanDown_sound h 0 p hp
    omega
  | succ f ih =>
    intro p hp q hq1 hq2
    unfold calcScanDown at hp
    split at hp
    · cases hp; omega
    · rename_i hcond
      by_cases hqe : q = (f : Int) + 1
      · subst hqe; omega
      · exact ih p hp q hq1 (by omega)

theorem calcMin_ok (h p : Int) (hc : calcMinPrefixForHosts h = Except.ok p) :
    (h = 0 ∧ p = 32) ∨
    (0 ≤ p ∧ p ≤ 32 ∧ h ≤ usableOf p ∧
      ∀ q : Int, p < q → q ≤ 32 → usableOf q < h) := by
  unfold calcMinPrefixForHosts at hc
  split at hc
  · cases hc
  · split at hc
    · cases hc; left; exact ⟨by assumption, rfl⟩
    · cases hscan : calcScanDown h 32 with
      | none => rw [hscan] at hc; cases hc
      | some p' =>
        rw [hscan] at hc
        cases hc
        right
        obtain ⟨h1, h2, h3⟩ := calcScanDown_sound h 32 p hscan
        exact ⟨h1, by exact_mod_cast h2, h3, fun q hq1 hq2 =>
          calcScanDown_min h 32 p hscan q hq1 (by exact_mod_cast hq2)⟩

theorem calcMin_anti_mono (h1 h2 p1 p2 : Int)
    (hc1 : calcMinPrefixForHosts h1 = Except.ok p1)
    (hc2 : calcMinPrefixForHosts h2 = Except.ok p2)
    (hh : 1 ≤ h2) (hhh : h2 ≤ h1) : p1 ≤ p2 := by
  rcases calcMin_ok h1 p1 hc1 with ⟨he, _⟩ | ⟨hb1, hb2, hcap, _⟩
  · omega
  · rcases calcMin_ok h2 p2 hc2 with ⟨he, _⟩ | ⟨_, hb2', _, hmin⟩
    · omega
    · by_contra hlt
      have := hmin p1 (by omega) hb2
      omega

theorem mkReq_ok (h : Int) (r : Req) (hm : mkReq h = Except.ok r) :
    ReqWF r ∧ r.requested = h := by
  unfold mkReq at hm
  split at hm
  · cases hm
  · rename_i hpos
    cases hp : calcMinPrefixForHosts h with
    | error e => rw [hp] at hm; cases hm
    | ok p =>
      rw [hp] at hm
      cases hm
      have h1 : (1 : Int) ≤ h := by omega
      exact ⟨⟨h1, hp, rfl⟩, rfl⟩

theorem buildReqs_wf :
    ∀ (hosts : List Int) (reqs0 : List Req),
      buildReqs hosts = Except.ok reqs0 → ∀ r ∈ reqs0, ReqWF r := by
  intro hosts
  induction hosts with
  | nil =>
    intro reqs0 hb r hr
    cases hb
    cases hr
  | cons h t ih =>
    intro reqs0 hb r hr
    unfold buildReqs at hb
    cases hr0 : mkReq h with
    | error e => rw [hr0] at hb; cases hb
    | ok r0 =>
      rw [hr0] at hb
      cases hrest : buildReqs t with
      | error e => rw [hrest] at hb; cases hb
      | ok rest =>
        rw [hrest] at hb
        cases hb
        rcases List.mem_cons.mp hr with rfl | hmem
        · exact (mkReq_ok h r hr0).1
        · exact ih rest hrest r hmem

theorem block_facts (p : Int) (h0 : 0 ≤ p) (h1 : p ≤ 32) :
    (1 : Int) ≤ 2 ^ ((32 - p).toNat) ∧
    ((2 : Int) ^ ((32 - p).toNat)) ∣ 4294967296 ∧
    (2 : Int) ^ ((32 - p).toNat) ≤ 4294967296 := by
  have hk : (32 - p).toNat ≤ 32 := by omega
  have hd : ((2 : Int) ^ ((32 - p).toNat)) ∣ 2 ^ 32 := pow_dvd_pow 2 hk
  have hle : (2 : Int) ^ ((32 - p).toNat) ≤ 2 ^ 32 :=
    pow_le_pow_right₀ (by norm_num) hk
  have hpos : (0 : Int) < 2 ^ ((32 - p).toNat) :=
    pow_pos (by norm_num) _
  have h2 : (2 : Int) ^ 32 = 4294967296 := by norm_num
  exact ⟨by omega, h2 ▸ hd, by omega⟩

theorem subnetInfo_network (n p h : Int) :
    (subnetInfo n p h).network = intToIp n := by
  unfold subnetInfo; split_ifs <;> rfl

theorem subnetInfo_prefixLen (n p h : Int) :
    (subnetInfo n p h).prefixLen = p := by
  unfold subnetInfo; split_ifs <;> rfl

theorem subnetInfo_total (n p h : Int) :
    (subnetInfo n p h).total_addresses = (2 : Int) ^ ((32 - p).toNat) := by
  unfold subnetInfo; split_ifs <;> rfl

theorem subnetInfo_requested (n p h : Int) :
    (subnetInfo n p h).requested_hosts = h := by
  unfold subnetInfo; split_ifs <;> rfl

theorem subnetInfo_usable (n p h : Int) :
    (subnetInfo n p h).usable_hosts = usableOf p := by
  unfold subnetInfo usableOf
  split_ifs <;> rfl

theorem subnetInfo_wasted (n p h : Int) :
    (subnetInfo n p h).wasted_addresses = (2 : Int) ^ ((32 - p).toNat) - h := by
  unfold subnetInfo; split_ifs <;> rfl

theorem usableOf_le_total (p : Int) :
    usableOf p ≤ (2 : Int) ^ ((32 - p).toNat) := by
  unfold usableOf
  have hpos : (0 : Int) < 2 ^ ((32 - p).toNat) := pow_pos (by norm_num) _
  split_ifs with h32 h31
  · subst h32; norm_num
  · subst h31; positivity
  · omega

theorem overlapFree_pairwise :
    ∀ l : List SubnetRecord, overlapFree l = true ↔
      l.Pairwise (fun a b =>
        ipToInt a.network + a.total_addresses - 1 < ipToInt b.network ∨
        ipToInt b.network + b.total_addresses - 1 < ipToInt a.network) := by
  intro l
  induction l with
  | nil => simp [overlapFree]
  | cons a rest ih =>
    unfold overlapFree
    rw [Bool.and_eq_true, List.all_eq_true, List.pairwise_cons, ih]
    constructor
    · rintro ⟨h1, h2⟩
      refine ⟨fun b hb => ?_, h2⟩
      have := h1 b hb
      simpa [pairDisjoint] using this
    · rintro ⟨h1, h2⟩
      refine ⟨fun b hb => ?_, h2⟩
      simpa [pairDisjoint] using h1 b hb

/-- Inversion of a successful allocateVlsm call into its pipeline facts. -/
theorem allocateVlsm_ok (cidr : String) (hosts : List Int)
    (out : List SubnetRecord) (h : allocateVlsm cidr hosts = Except.ok out) :
    ∃ (primary : ParsedCidr) (reqs0 : List Req),
      parseCidr cidr = Except.ok primary ∧
      buildReqs hosts = Except.ok reqs0 ∧
      jsGtNum (some ((List.insertionSort reqOrder reqs0).foldl
        (fun s r => s + r.block) 0)) primary.total = false ∧
      placeLoop primary.networkInt primary.broadcastInt
        (List.insertionSort reqOrder reqs0) primary.networkInt [] =
        Except.ok out ∧
      overlapFree out = true := by
  unfold allocateVlsm at h
  cases hp : parseCidr cidr with
  | error e => rw [hp] at h; cases h
  | ok primary =>
    rw [hp] at h
    dsimp only at h
    cases hb : buildReqs hosts with
    | error e => rw [hb] at h; cases h
    | ok reqs0 =>
      rw [hb] at h
      dsimp only at h
      refine ⟨primary, reqs0, rfl, rfl, ?_⟩
      split at h
      · cases h
      · rename_i hcap
        cases hloop : placeLoop primary.networkInt primary.broadcastInt
            (List.insertionSort reqOrder reqs0) primary.networkInt [] with
        | error e => rw [hloop] at h; cases h
        | ok allocations =>
          rw [hloop] at h
          dsimp only at h
          split at h
          · rename_i hov
            cases h
            exact ⟨Bool.of_not_eq_true (by simpa using hcap), rfl, hov⟩
          · cases h

theorem dvd_jsToUint32 (b x : Int) (hb : b ∣ 4294967296) (hx : b ∣ x) :
    b ∣ jsToUint32 x := by
  unfold jsToUint32
  rw [Int.emod_def]
  exact dvd_sub hx (Dvd.dvd.mul_right hb _)

theorem dvd_add_le (b A : Int) (hd : b ∣ A) (h0 : 0 ≤ A) (h1 : A < 4294967296)
    (hb0 : 0 < b) (hbd : b ∣ 4294967296) : A + b ≤ 4294967296 := by
  obtain ⟨q, hq⟩ := hd
  obtain ⟨m, hm⟩ := hbd
  have hqm : q < m := by
    have : b * q < b * m := by omega
    exact (mul_lt_mul_left hb0).mp this
  have h2 : b * (q + 1) ≤ b * m :=
    mul_le_mul_of_nonneg_left (by omega) (by omega)
  have h3 : b * (q + 1) = b * q + b := by ring
  omega

/-- Every record a successful placement walk appends comes from a start
value that is nonnegative, block-aligned below 2^32, at or after the
primary start, and whose block end does not pass the primary broadcast. -/
theorem placeLoop_spec (pS pE : Int) :
    ∀ (reqs : List Req) (current : Int) (allocs out : List SubnetRecord),
      (∀ r ∈ reqs, ReqWF r) →
      placeLoop pS pE reqs current allocs = Except.ok out →
      ∃ pairs : List (Int × Req),
        out = allocs ++ pairs.map (fun q => subnetInfo q.1 q.2.prefixLen q.2.requested) ∧
        pairs.map Prod.snd = reqs ∧
        ∀ q ∈ pairs, 0 ≤ q.1 ∧ q.1 + q.2.block ≤ 4294967296 ∧
          pS ≤ q.1 ∧ q.1 + q.2.block - 1 ≤ pE := by
  intro reqs
  induction reqs with
  | nil =>
    intro current allocs out _ h
    refine ⟨[], ?_, rfl, by simp⟩
    unfold placeLoop at h
    cases h
    simp
  | cons r rest ih =>
    intro current allocs out hwf h
    unfold placeLoop at h
    dsimp only at h
    split at h
    · cases h
    · split at h
      · cases h
      · rename_i hc1 hc2
        obtain ⟨pairs, hout, hsnd, hq⟩ :=
          ih _ _ _ (fun x hx => hwf x (List.mem_cons_of_mem _ hx)) h
        have hwfr : ReqWF r := hwf r (List.mem_cons_self r rest)
        obtain ⟨hreq1, hcmin, hblk⟩ := hwfr
        have hpb : 0 ≤ r.prefixLen ∧ r.prefixLen ≤ 32 := by
          rcases calcMin_ok _ _ hcmin with ⟨_, hp32⟩ | ⟨hb1, hb2, _, _⟩
          · rw [hp32]; norm_num
          · exact ⟨hb1, hb2⟩
        obtain ⟨hblk1, hblkdvd, hblkle⟩ := block_facts r.prefixLen hpb.1 hpb.2
        rw [← hblk] at hblk1 hblkdvd hblkle
        set A := jsToUint32 (ceilNum current r.block * r.block) with hA
        have hA0 : 0 ≤ A := jsToUint32_nonneg _
        have hAlt : A < 4294967296 := jsToUint32_lt _
        have hAdvd : r.block ∣ A :=
          dvd_jsToUint32 _ _ hblkdvd (Dvd.intro_left _ rfl)
        have hAb : A + r.block ≤ 4294967296 :=
          dvd_add_le r.block A hAdvd hA0 hAlt (by omega) hblkdvd
        have hpS : pS ≤ A := by
          rcases not_or.mp hc2 with ⟨hns, _⟩
          omega
        have hpE : A + r.block - 1 ≤ pE := by
          have hu : jsToUint32 (A + r.block - 1) = A + r.block - 1 :=
            jsToUint32_of_range _ (by omega) (by omega)
          rw [hu] at hc1
          omega
        refine ⟨(A, r) :: pairs, ?_, ?_, ?_⟩
        · rw [hout]; simp
        · rw [List.map_cons, hsnd]
        · intro q hqm
          rcases List.mem_cons.mp hqm with rfl | hmem
          · exact ⟨hA0, hAb, hpS, hpE⟩
          · exact hq q hmem

theorem ReqWF_bounds (r : Req) (h : ReqWF r) :
    0 ≤ r.prefixLen ∧ r.prefixLen ≤ 32 ∧ 1 ≤ r.block ∧
    r.block ∣ 4294967296 ∧ r.block ≤ 4294967296 := by
  obtain ⟨hreq, hcmin, hblk⟩ := h
  have hpb : 0 ≤ r.prefixLen ∧ r.prefixLen ≤ 32 := by
    rcases calcMin_ok _ _ hcmin with ⟨_, hp32⟩ | ⟨hb1, hb2, _, _⟩
    · rw [hp32]; norm_num
    · exact ⟨hb1, hb2⟩
  obtain ⟨h1, h2, h3⟩ := block_facts r.prefixLen hpb.1 hpb.2
  exact ⟨hpb.1, hpb.2, hblk ▸ h1, hblk ▸ h2, hblk ▸ h3⟩

/-- C10: on every successful allocateVlsm call, every record satisfies
requested <= usable, wasted = total - requested, and wasted >= 0. -/
theorem allocate_waste_nonneg (cidr : String) (hosts : List Int)
    (out : List SubnetRecord)
    (hall : allocateVlsm cidr hosts = Except.ok out) :
    ∀ rec ∈ out, rec.requested_hosts ≤ rec.usable_hosts ∧
      rec.wasted_addresses = rec.total_addresses - rec.requested_hosts ∧
      0 ≤ rec.wasted_addresses := by
  obtain ⟨primary, reqs0, hp, hb, hcap, hloop, hov⟩ := allocateVlsm_ok _ _ _ hall
  have hwf : ∀ r ∈ List.insertionSort reqOrder reqs0, ReqWF r := fun r hr =>
    buildReqs_wf _ _ hb r ((List.perm_insertionSort reqOrder reqs0).subset hr)
  obtain ⟨pairs, hout, hsnd, hq⟩ := placeLoop_spec _ _ _ _ _ _ hwf hloop
  intro rec hrec
  rw [hout, List.nil_append] at hrec
  obtain ⟨q, hqm, rfl⟩ := List.mem_map.mp hrec
  have hwfq : ReqWF q.2 := hwf q.2 (hsnd ▸ List.mem_map_of_mem Prod.snd hqm)
  obtain ⟨hreq1, hcmin, hblk⟩ := hwfq
  have husable : q.2.requested ≤ usableOf q.2.prefixLen := by
    rcases calcMin_ok _ _ hcmin with ⟨h0, _⟩ | ⟨_, _, hcap', _⟩
    · omega
    · exact hcap'
  rw [subnetInfo_requested, subnetInfo_usable, subnetInfo_wasted,
    subnetInfo_total]
  have hut := usableOf_le_total q.2.prefixLen
  exact ⟨husable, rfl, by omega⟩

theorem allocate_waste_nonneg_witness :
    (subnetInfo 0 32 1).requested_hosts ≤ (subnetInfo 0 32 1).usable_hosts ∧
    (subnetInfo 0 32 1).wasted_addresses =
      (subnetInfo 0 32 1).total_addresses - (subnetInfo 0 32 1).requested_hosts ∧
    0 ≤ (subnetInfo 0 32 1).wasted_addresses :=
  allocate_waste_nonneg "0.0.0.0/30" [1] [subnetInfo 0 32 1] rfl
    (subnetInfo 0 32 1) (List.mem_singleton_self _)

/-- C7: records come back in placement order, which is requestedHosts
descending with ties broken by derived prefix ascending; concretely,
allocate("10.0.0.0/16", [1000, 2000, 50]) places 2000 at 10.0.0.0/21,
then 1000 at 10.0.8.0/22, then 50 at 10.0.12.0/26. -/
theorem allocate_sorted_order :
    (∀ (cidr : String) (hosts : List Int) (out : List SubnetRecord),
      allocateVlsm cidr hosts = Except.ok out →
      out.Pairwise (fun a b => b.requested_hosts < a.requested_hosts ∨
        (a.requested_hosts = b.requested_hosts ∧ a.prefixLen ≤ b.prefixLen))) ∧
    (allocateVlsm "10.0.0.0/16" [1000, 2000, 50]).map (List.map recProjOrder) =
      Except.ok [("10.0.0.0", 21, 2000), ("10.0.8.0", 22, 1000),
                 ("10.0.12.0", 26, 50)] := by
  constructor
  · intro cidr hosts out hall
    obtain ⟨primary, reqs0, hp, hb, hcap, hloop, hov⟩ := allocateVlsm_ok _ _ _ hall
    have hwf : ∀ r ∈ List.insertionSort reqOrder reqs0, ReqWF r := fun r hr =>
      buildReqs_wf _ _ hb r ((List.perm_insertionSort reqOrder reqs0).subset hr)
    obtain ⟨pairs, hout, hsnd, hq⟩ := placeLoop_spec _ _ _ _ _ _ hwf hloop
    have hsorted : (List.insertionSort reqOrder reqs0).Pairwise reqOrder :=
      List.sorted_insertionSort reqOrder reqs0
    rw [← hsnd, List.pairwise_map] at hsorted
    rw [hout, List.nil_append, List.pairwise_map]
    refine hsorted.imp ?_
    intro a b hab
    rw [subnetInfo_requested, subnetInfo_requested,
      subnetInfo_prefixLen, subnetInfo_prefixLen]
    exact hab
  · rfl

theorem allocate_sorted_order_witness :
    List.Pairwise (fun a b : SubnetRecord =>
      b.requested_hosts < a.requested_hosts ∨
      (a.requested_hosts = b.requested_hosts ∧ a.prefixLen ≤ b.prefixLen))
      [subnetInfo 0 32 1] :=
  allocate_sorted_order.1 "0.0.0.0/30" [1] [subnetInfo 0 32 1] rfl

/-!  Machinery for the forward-motion (strictly increasing) invariant. -/

theorem land_mod_two_pow_eq_zero (x M k : Nat) (hM : M % 2 ^ k = 0) :
    Nat.land x M % 2 ^ k = 0 := by
  apply Nat.eq_of_testBit_eq
  intro i
  rw [Nat.testBit_mod_two_pow, Nat.zero_testBit]
  rcases Nat.lt_or_ge i k with hik | hik
  · have hMi : M.testBit i = false := by
      have := Nat.testBit_mod_two_pow M k i
      rw [hM, Nat.zero_testBit] at this
      simpa [hik] using this.symm
    show (decide (i < k) && (Nat.land x M).testBit i) = false
    have : (Nat.land x M).testBit i = (x.testBit i && M.testBit i) :=
      Nat.testBit_land x M i
    rw [this, hMi, Bool.and_false, Bool.and_false]
  · simp only [Bool.and_eq_false_iff, decide_eq_false_iff_not]
    left
    omega

theorem jsAnd_u32 (a b : Int) :
    jsToUint32 (jsAnd a b) =
      ((Nat.land (jsToUint32 a).toNat (jsToUint32 b).toNat : Nat) : Int) := by
  unfold jsAnd
  rw [jsToUint32_jsToInt32]
  simp only [Int.ofNat_eq_natCast]
  apply jsToUint32_of_range
  · exact Int.natCast_nonneg _
  · have h1 : Nat.land (jsToUint32 a).toNat (jsToUint32 b).toNat ≤
        (jsToUint32 a).toNat := Nat.and_le_left
    have h2 := jsToUint32_lt a
    have h3 := jsToUint32_nonneg a
    omega

theorem mask_dvd_val (p : Int) (h1 : 1 ≤ p) (h2 : p ≤ 32) :
    ((2 : Nat) ^ ((32 - p).toNat)) ∣ (maskOfPfxNum (some p)).toNat := by
  interval_cases p <;> decide

theorem maskAnd_dvd (X p : Int) (h0 : 0 ≤ p) (h1 : p ≤ 32) :
    ((2 : Int) ^ ((32 - p).toNat)) ∣
      jsToUint32 (jsAnd X (maskOfPfxNum (some p))) := by
  rw [jsAnd_u32]
  rcases eq_or_lt_of_le h0 with hz | hpos
  · have hm : maskOfPfxNum (some p) = 0 := by rw [← hz]; rfl
    rw [hm]
    have hz0 : (jsToUint32 0).toNat = 0 := by decide
    rw [hz0]
    have hl0 : Nat.land (jsToUint32 X).toNat 0 = 0 := Nat.and_zero _
    rw [hl0]
    exact Dvd.intro 0 (by simp)
  · have hmv := mask_dvd_val p (by omega) h1
    have hmlt : jsToUint32 (maskOfPfxNum (some p)) = maskOfPfxNum (some p) := by
      unfold maskOfPfxNum
      rw [if_neg (by intro hc; cases hc; omega)]
      rw [jsToUint32_idem]
    rw [hmlt]
    have hmod : (maskOfPfxNum (some p)).toNat % 2 ^ ((32 - p).toNat) = 0 :=
      Nat.mod_eq_zero_of_dvd hmv
    have hld := land_mod_two_pow_eq_zero (jsToUint32 X).toNat
      ((maskOfPfxNum (some p)).toNat) ((32 - p).toNat) hmod
    have hdvd : ((2 : Nat) ^ ((32 - p).toNat)) ∣
        Nat.land (jsToUint32 X).toNat (maskOfPfxNum (some p)).toNat :=
      Nat.dvd_of_mod_eq_zero hld
    exact_mod_cast hdvd

/-- Facts parseCidr guarantees about its successful result. -/
theorem parseCidr_fields (s : String) (pc : ParsedCidr)
    (h : parseCidr s = Except.ok pc) :
    pc.broadcastInt =
      JsNum.toU32 (jsSub (jsAdd (some pc.networkInt) pc.total) (some 1)) ∧
    (pc.prefixNum = none → pc.total = none) ∧
    (∀ p, pc.prefixNum = some p → 0 ≤ p ∧ p ≤ 32 ∧
      pc.total = some ((2 : Int) ^ ((32 - p).toNat)) ∧
      ((2 : Int) ^ ((32 - p).toNat)) ∣ jsToUint32 pc.networkInt) := by
  obtain ⟨ni, pn, tot, bc⟩ := pc
  unfold parseCidr at h
  split at h
  · rename_i ip pTxt heq
    cases hjp : jsParseInt pTxt with
    | none =>
      rw [hjp] at h
      simp only [jsLtNum, jsGtNum, Bool.or_self, Bool.false_eq_true,
        if_false] at h
      injection h with h2
      rw [ParsedCidr.mk.injEq] at h2
      obtain ⟨hni, hpn, htot, hbc⟩ := h2
      dsimp only
      refine ⟨?_, ?_, ?_⟩
      · rw [← hbc, ← hni, ← htot]
      · intro _; rw [← htot]
      · intro p hp
        rw [← hpn] at hp
        cases hp
    | some v =>
      rw [hjp] at h
      simp only [jsLtNum, jsGtNum, Bool.or_eq_true, decide_eq_true_eq] at h
      by_cases hv : v < 0 ∨ 32 < v
      · rw [if_pos hv] at h; cases h
      · rw [if_neg hv] at h
        rw [not_or] at hv
        injection h with h2
        rw [ParsedCidr.mk.injEq] at h2
        obtain ⟨hni, hpn, htot, hbc⟩ := h2
        dsimp only
        refine ⟨?_, ?_, ?_⟩
        · rw [← hbc, ← hni, ← htot]
        · intro hc; rw [← hpn] at hc; cases hc
        · intro p hp
          rw [← hpn] at hp
          injection hp with hp2
          subst hp2
          refine ⟨by omega, by omega, by rw [← htot], ?_⟩
          rw [← hni]
          exact maskAnd_dvd (ipToIntChars ip) v (by omega) (by omega)
  · cases h

theorem foldl_add_blocks : ∀ (l : List Req) (init : Int),
    l.foldl (fun s r => s + r.block) init = init + (l.map Req.block).sum := by
  intro l
  induction l with
  | nil => intro init; simp
  | cons r t ih =>
    intro init
    rw [List.foldl_cons, ih, List.map_cons, List.sum_cons]
    ring

theorem blocks_sum_ge_len : ∀ l : List Req, (∀ r ∈ l, 1 ≤ r.block) →
    (l.length : Int) ≤ (l.map Req.block).sum := by
  intro l
  induction l with
  | nil => intro _; simp
  | cons r t ih =>
    intro hall
    rw [List.map_cons, List.sum_cons, List.length_cons]
    have h1 := hall r (List.mem_cons_self r t)
    have h2 := ih (fun x hx => hall x (List.mem_cons_of_mem _ hx))
    push_cast
    omega

theorem member_block_le_sum : ∀ (l : List Req), (∀ r ∈ l, 1 ≤ r.block) →
    ∀ r ∈ l, r.block ≤ (l.map Req.block).sum := by
  intro l
  induction l with
  | nil => intro _ r hr; cases hr
  | cons a t ih =>
    intro hall r hr
    rw [List.map_cons, List.sum_cons]
    have hts := blocks_sum_ge_len t (fun x hx => hall x (List.mem_cons_of_mem _ hx))
    rcases List.mem_cons.mp hr with rfl | hmem
    · have : (0 : Int) ≤ t.length := Int.natCast_nonneg _
      omega
    · have h1 := hall a (List.mem_cons_self a t)
      have h2 := ih (fun x hx => hall x (List.mem_cons_of_mem _ hx)) r hmem
      omega

theorem pairwise_imp_mem {α : Type} {R S : α → α → Prop} :
    ∀ l : List α, (∀ a ∈ l, ∀ b ∈ l, R a b → S a b) → l.Pairwise R →
      l.Pairwise S := by
  intro l
  induction l with
  | nil => intro _ _; exact List.Pairwise.nil
  | cons a t ih =>
    intro himp hp
    rw [List.pairwise_cons] at hp ⊢
    refine ⟨fun b hb => himp a (List.mem_cons_self a t) b
      (List.mem_cons_of_mem _ hb) (hp.1 b hb), ?_⟩
    exact ih (fun x hx y hy => himp x (List.mem_cons_of_mem _ hx) y
      (List.mem_cons_of_mem _ hy)) hp.2

theorem pow2_int_dvd_of_le (i j : Nat) (h : (2 : Int) ^ i ≤ 2 ^ j) :
    (2 : Int) ^ i ∣ 2 ^ j := by
  apply pow_dvd_pow
  by_contra hij
  have : (2 : Int) ^ j < 2 ^ i :=
    pow_lt_pow_right₀ (by norm_num) (by omega)
  omega

theorem reqOrder_block_dvd (a b : Req) (ha : ReqWF a) (hb : ReqWF b)
    (h : reqOrder a b) : b.block ∣ a.block := by
  obtain ⟨ha1, hamin, hablk⟩ := ha
  obtain ⟨hb1, hbmin, hbblk⟩ := hb
  have hple : a.prefixLen ≤ b.prefixLen := by
    rcases h with hlt | ⟨heq, hle⟩
    · exact calcMin_anti_mono _ _ _ _ hamin hbmin hb1 (by omega)
    · exact hle
  rw [hablk, hbblk]
  exact pow_dvd_pow 2 (by omega)

theorem ceilNum_mul_of_dvd (c b : Int) (hb : 0 < b) (h : b ∣ c) :
    ceilNum c b * b = c := by
  obtain ⟨q, rfl⟩ := h
  unfold ceilNum
  have h1 : -(b * q) = b * -q := by ring
  rw [h1, Int.mul_ediv_cancel_left _ (by omega)]
  ring

theorem ceilNum_one_mul (b : Int) (hb : 1 ≤ b) : ceilNum 1 b * b = b := by
  have h1 : (-1 : Int) / b = -1 ∧ (-1 : Int) % b = b - 1 :=
    (Int.ediv_emod_unique (by omega)).mpr ⟨by ring, by omega, by omega⟩
  unfold ceilNum
  rw [h1.1]
  ring

/-- When every remaining block divides the unsigned cursor, blocks are
divisibility-sorted and the remaining blocks fit below 2^32, a successful
walk places every subnet exactly at the cursor (no gaps, no wrap). -/
theorem placeLoop_tight (pS pE : Int) :
    ∀ (reqs : List Req) (current : Int) (allocs out : List SubnetRecord),
      (∀ r ∈ reqs, ReqWF r) →
      reqs.Pairwise (fun a b => b.block ∣ a.block) →
      (∀ r ∈ reqs, r.block ∣ jsToUint32 current) →
      jsToUint32 current + (reqs.map Req.block).sum ≤ 4294967296 →
      placeLoop pS pE reqs current allocs = Except.ok out →
      out = allocs ++ tightPlace reqs (jsToUint32 current) := by
  intro reqs
  induction reqs with
  | nil =>
    intro current allocs out _ _ _ _ h
    unfold placeLoop at h
    cases h
    simp [tightPlace]
  | cons r rest ih =>
    intro current allocs out hwf hpair hdvd hsum h
    obtain ⟨hb0, hb32, hb1, hbdvd, hble⟩ :=
      ReqWF_bounds r (hwf r (List.mem_cons_self r rest))
    have hdr : r.block ∣ jsToUint32 current := hdvd r (List.mem_cons_self r rest)
    have hdc : r.block ∣ current := by
      have h1 : current % 4294967296 =
          current - 4294967296 * (current / 4294967296) :=
        Int.emod_def current 4294967296
      have h2 : r.block ∣ current - 4294967296 * (current / 4294967296) := by
        rw [← h1]; exact hdr
      obtain ⟨k, hk⟩ := hbdvd
      obtain ⟨m, hm⟩ := h2
      refine ⟨k * (current / 4294967296) + m, ?_⟩
      have hexp : r.block * (k * (current / 4294967296) + m) =
          (r.block * k) * (current / 4294967296) + r.block * m := by ring
      rw [hexp, ← hk]
      omega
    have hAe : jsToUint32 (ceilNum current r.block * r.block) =
        jsToUint32 current := by
      rw [ceilNum_mul_of_dvd current r.block (by omega) hdc]
    unfold placeLoop at h
    dsimp only at h
    rw [hAe] at h
    split at h
    · cases h
    · split at h
      · cases h
      · rw [List.map_cons, List.sum_cons] at hsum
        have huc0 : 0 ≤ jsToUint32 current := jsToUint32_nonneg _
        cases rest with
        | nil =>
          unfold placeLoop at h
          cases h
          simp [tightPlace]
        | cons r2 rest2 =>
          have hwfrest : ∀ x ∈ r2 :: rest2, ReqWF x := fun x hx =>
            hwf x (List.mem_cons_of_mem _ hx)
          have hrest1 : ∀ x ∈ r2 :: rest2, 1 ≤ x.block := fun x hx =>
            (ReqWF_bounds x (hwfrest x hx)).2.2.1
          have hsum1 : (1 : Int) ≤ ((r2 :: rest2).map Req.block).sum := by
            have hgl := blocks_sum_ge_len (r2 :: rest2) hrest1
            have hlen : (1 : Int) ≤ ((r2 :: rest2).length : Int) := by
              rw [List.length_cons]; push_cast; omega
            omega
          have hucb : jsToUint32 current + r.block < 4294967296 := by omega
          have hucr : jsToUint32 (jsToUint32 current + r.block) =
              jsToUint32 current + r.block :=
            jsToUint32_of_range _ (by omega) (by omega)
          have hdvd2 : ∀ x ∈ r2 :: rest2,
              x.block ∣ jsToUint32 (jsToUint32 (jsToUint32 current + r.block)) := by
            intro x hx
            rw [jsToUint32_idem, hucr]
            exact dvd_add (hdvd x (List.mem_cons_of_mem _ hx))
              ((List.pairwise_cons.mp hpair).1 x hx)
          have hsum2 : jsToUint32 (jsToUint32 (jsToUint32 current + r.block)) +
              ((r2 :: rest2).map Req.block).sum ≤ 4294967296 := by
            rw [jsToUint32_idem, hucr]; omega
          have hrec := ih (jsToUint32 (jsToUint32 current + r.block))
            (allocs ++ [subnetInfo (jsToUint32 current) r.prefixLen r.requested])
            out hwfrest (List.pairwise_cons.mp hpair).2 hdvd2 hsum2 h
          rw [hrec, jsToUint32_idem, hucr]
          show _ = allocs ++ tightPlace (r :: r2 :: rest2) (jsToUint32 current)
          unfold tightPlace
          simp [tightPlace]

/-- The tight placement yields records in strictly increasing address
order when it starts at a nonnegative cursor and stays below 2^32. -/
theorem tightPlace_chain :
    ∀ (reqs : List Req) (uc : Int), 0 ≤ uc →
      uc + (reqs.map Req.block).sum ≤ 4294967296 →
      (∀ r ∈ reqs, ReqWF r) →
      (tightPlace reqs uc).Chain' (fun a b =>
        ipToInt a.network + a.total_addresses - 1 < ipToInt b.network) := by
  intro reqs
  induction reqs with
  | nil => intro uc _ _ _; simp [tightPlace]
  | cons r rest ih =>
    intro uc h0 hsum hwf
    rw [List.map_cons, List.sum_cons] at hsum
    have hwfr := hwf r (List.mem_cons_self r rest)
    obtain ⟨hp0, hp32, hb1, _, _⟩ := ReqWF_bounds r hwfr
    cases rest with
    | nil =>
      simp [tightPlace]
    | cons r2 rest2 =>
      have hwf2 := hwf r2 (List.mem_cons_of_mem _ (List.mem_cons_self r2 rest2))
      obtain ⟨_, _, hb21, _, _⟩ := ReqWF_bounds r2 hwf2
      have hsumr2 : (0 : Int) ≤ (rest2.map Req.block).sum := by
        have hgl := blocks_sum_ge_len rest2 (fun x hx =>
          (ReqWF_bounds x (hwf x (List.mem_cons_of_mem _
            (List.mem_cons_of_mem _ hx)))).2.2.1)
        have : (0 : Int) ≤ (rest2.length : Int) := Int.natCast_nonneg _
        omega
      rw [List.map_cons, List.sum_cons] at hsum
      show List.Chain' _ (subnetInfo uc r.prefixLen r.requested ::
        subnetInfo (uc + r.block) r2.prefixLen r2.requested ::
        tightPlace rest2 (uc + r.block + r2.block))
      rw [List.chain'_cons]
      constructor
      · rw [subnetInfo_network, subnetInfo_network, subnetInfo_total]
        rw [ipToInt_intToIp uc h0 (by omega),
          ipToInt_intToIp (uc + r.block) (by omega) (by omega)]
        obtain ⟨_, _, hblk⟩ := hwfr
        rw [← hblk]
        omega
      · have := ih (uc + r.block) (by omega)
          (by rw [List.map_cons, List.sum_cons]; omega)
          (fun x hx => hwf x (List.mem_cons_of_mem _ hx))
        simpa [tightPlace] using this

/-- When the primary broadcast bound is nonpositive (the NaN-prefix
parseCidr outcome), a successful walk places at most one record, a /32
block at address 0. -/
theorem placeLoop_end_nonpos (pS pE : Int) (hpE : pE ≤ 0) :
    ∀ (reqs : List Req) (current : Int) (allocs out : List SubnetRecord),
      (∀ r ∈ reqs, ReqWF r) →
      placeLoop pS pE reqs current allocs = Except.ok out →
      out = allocs ∨ ∃ r, reqs = [r] ∧
        out = allocs ++ [subnetInfo 0 r.prefixLen r.requested] ∧
        r.block = 1 ∧ jsToUint32 current = 0 := by
  intro reqs
  cases reqs with
  | nil =>
    intro current allocs out _ h
    unfold placeLoop at h
    cases h
    exact Or.inl rfl
  | cons r rest =>
    intro current allocs out hwf h
    obtain ⟨hb0, hb32, hb1, hbdvd, hble⟩ :=
      ReqWF_bounds r (hwf r (List.mem_cons_self r rest))
    unfold placeLoop at h
    dsimp only at h
    split at h
    · cases h
    · rename_i hc1
      set A := jsToUint32 (ceilNum current r.block * r.block) with hA
      have hA0 : 0 ≤ A := jsToUint32_nonneg _
      have hAlt : A < 4294967296 := jsToUint32_lt _
      have hAdvd : r.block ∣ A :=
        dvd_jsToUint32 _ _ hbdvd (Dvd.intro_left _ rfl)
      have hAb : A + r.block ≤ 4294967296 :=
        dvd_add_le r.block A hAdvd hA0 hAlt (by omega) hbdvd
      have hval : jsToUint32 (A + r.block - 1) = A + r.block - 1 :=
        jsToUint32_of_range _ (by omega) (by omega)
      rw [hval] at hc1
      have hAz : A = 0 := by omega
      have hbz : r.block = 1 := by omega
      have hceil : ceilNum current r.block * r.block = current := by
        rw [hbz]
        unfold ceilNum
        rw [Int.ediv_one]
        ring
      have hcur0 : jsToUint32 current = 0 := by
        rw [← hceil, ← hA]
        exact hAz
      split at h
      · cases h
      · cases rest with
        | nil =>
          unfold placeLoop at h
          cases h
          right
          exact ⟨r, rfl, by rw [hAz], hbz, hcur0⟩
        | cons r2 rest2 =>
          exfalso
          have hmem2 : r2 ∈ r :: r2 :: rest2 :=
            List.mem_cons_of_mem _ (List.mem_cons_self r2 rest2)
          obtain ⟨hb0', hb32', hb1', hbdvd', hble'⟩ :=
            ReqWF_bounds r2 (hwf r2 hmem2)
          obtain ⟨_, _, hblk2⟩ := hwf r2 hmem2
          rw [hAz, hbz] at h
          have h01 : jsToUint32 (0 + 1) = 1 := by decide
          rw [h01] at h
          unfold placeLoop at h
          dsimp only at h
          have hA2 : jsToUint32 (ceilNum 1 r2.block * r2.block) =
              jsToUint32 r2.block := by
            rw [ceilNum_one_mul r2.block (by omega)]
          rw [hA2] at h
          split at h
          · cases h
          · rename_i hc2
            apply hc2
            rcases eq_or_lt_of_le hble' with hbe | hblt
            · rw [hbe]
              have hv2 : jsToUint32 (jsToUint32 (4294967296 : Int) +
                  4294967296 - 1) = 4294967295 := by decide
              rw [hv2]
              omega
            · have hb31 : r2.block ≤ 2147483648 := by
                rw [hblk2] at hblt ⊢
                have hk31 : (32 - r2.prefixLen).toNat ≤ 31 := by
                  by_contra hk
                  have hk32 : 32 ≤ (32 - r2.prefixLen).toNat := by omega
                  have : (2 : Int) ^ 32 ≤ 2 ^ ((32 - r2.prefixLen).toNat) :=
                    pow_le_pow_right₀ (by norm_num) hk32
                  norm_num at this
                  omega
                have : (2 : Int) ^ ((32 - r2.prefixLen).toNat) ≤ 2 ^ 31 :=
                  pow_le_pow_right₀ (by norm_num) hk31
                norm_num at this
                omega
              have hvr : jsToUint32 r2.block = r2.block :=
                jsToUint32_of_range _ (by omega) (by omega)
              rw [hvr]
              have hv2 : jsToUint32 (r2.block + r2.block - 1) =
                  r2.block + r2.block - 1 :=
                jsToUint32_of_range _ (by omega) (by omega)
              rw [hv2]
              omega

/-- Every tight-placement record starts at or after the cursor it was
placed from. -/
theorem tightPlace_mem_ge :
    ∀ (reqs : List Req) (uc : Int), 0 ≤ uc →
      uc + (reqs.map Req.block).sum ≤ 4294967296 →
      (∀ r ∈ reqs, ReqWF r) →
      ∀ rec ∈ tightPlace reqs uc, uc ≤ ipToInt rec.network := by
  intro reqs
  induction reqs with
  | nil =>
    intro uc _ _ _ rec hrec
    simp [tightPlace] at hrec
  | cons r rest ih =>
    intro uc h0 hsum hwf rec hrec
    rw [List.map_cons, List.sum_cons] at hsum
    have hwfr := hwf r (List.mem_cons_self r rest)
    obtain ⟨_, _, hb1, _, _⟩ := ReqWF_bounds r hwfr
    have hsumrest : 0 ≤ (rest.map Req.block).sum := by
      have hgl := blocks_sum_ge_len rest (fun x hx =>
        (ReqWF_bounds x (hwf x (List.mem_cons_of_mem _ hx))).2.2.1)
      have hlen : (0 : Int) ≤ (rest.length : Int) := Int.natCast_nonneg _
      omega
    rcases List.mem_cons.mp hrec with rfl | hmem
    · rw [subnetInfo_network, ipToInt_intToIp uc h0 (by omega)]
    · have := ih (uc + r.block) (by omega) (by omega)
        (fun x hx => hwf x (List.mem_cons_of_mem _ hx)) rec hmem
      omega

/-- A successful allocateVlsm call returns exactly the tight placement of
some well-formed requirement list, starting at the unsigned primary
network start, with all blocks fitting below 2^32. -/
theorem allocate_ok_tightPlace (cidr : String) (hosts : List Int)
    (out : List SubnetRecord) (primary : ParsedCidr)
    (hall : allocateVlsm cidr hosts = Except.ok out)
    (hp : parseCidr cidr = Except.ok primary) :
    ∃ reqs : List Req, (∀ r ∈ reqs, ReqWF r) ∧
      jsToUint32 primary.networkInt + (reqs.map Req.block).sum ≤ 4294967296 ∧
      out = tightPlace reqs (jsToUint32 primary.networkInt) := by
  obtain ⟨primary', reqs0, hp', hb, hcap, hloop, hov⟩ := allocateVlsm_ok _ _ _ hall
  rw [hp] at hp'
  injection hp' with hpe
  subst hpe
  have hwf : ∀ r ∈ List.insertionSort reqOrder reqs0, ReqWF r := fun r hr =>
    buildReqs_wf _ _ hb r ((List.perm_insertionSort reqOrder reqs0).subset hr)
  obtain ⟨hbc, hnone, hsome⟩ := parseCidr_fields _ _ hp
  have hult : jsToUint32 primary.networkInt < 4294967296 := jsToUint32_lt _
  cases hpn : primary.prefixNum with
  | none =>
    have htot := hnone hpn
    have hbc0 : primary.broadcastInt = 0 := by
      rw [hbc, htot]
      rfl
    rcases placeLoop_end_nonpos primary.networkInt primary.broadcastInt
      (by omega) _ _ _ _ hwf hloop with hout | ⟨r, hreq, hout, hblk1, hcur0⟩
    · refine ⟨[], by simp, ?_, ?_⟩
      · simp only [List.map_nil, List.sum_nil, add_zero]
        omega
      · rw [hout]
        rfl
    · refine ⟨[r], ?_, ?_, ?_⟩
      · intro x hx
        rw [List.mem_singleton] at hx
        subst hx
        exact hwf x (by rw [hreq]; exact List.mem_singleton_self _)
      · rw [hcur0]
        simp only [List.map_cons, List.map_nil, List.sum_cons, List.sum_nil]
        omega
      · rw [hout, hcur0, List.nil_append]
        rfl
  | some p =>
    obtain ⟨hp0, hp32, htot, hdvdu⟩ := hsome p hpn
    have hcap' : (List.map Req.block (List.insertionSort reqOrder reqs0)).sum ≤
        (2 : Int) ^ ((32 - p).toNat) := by
      rw [foldl_add_blocks, htot] at hcap
      simp only [jsGtNum, zero_add, decide_eq_false_iff_not, not_lt] at hcap
      exact hcap
    have hu0 : 0 ≤ jsToUint32 primary.networkInt := jsToUint32_nonneg _
    obtain ⟨ht1, htdvd, htle⟩ := block_facts p hp0 hp32
    have huts : jsToUint32 primary.networkInt + (2 : Int) ^ ((32 - p).toNat) ≤
        4294967296 :=
      dvd_add_le _ _ hdvdu hu0 hult (by omega) htdvd
    have hsum : jsToUint32 primary.networkInt +
        (List.map Req.block (List.insertionSort reqOrder reqs0)).sum ≤
        4294967296 := by omega
    have hdvdall : ∀ r ∈ List.insertionSort reqOrder reqs0,
        r.block ∣ jsToUint32 primary.networkInt := by
      intro r hr
      have h1 := member_block_le_sum _
        (fun x hx => (ReqWF_bounds x (hwf x hx)).2.2.1) r hr
      have hbt : r.block ∣ (2 : Int) ^ ((32 - p).toNat) := by
        obtain ⟨_, _, hblk⟩ := hwf r hr
        rw [hblk]
        exact pow2_int_dvd_of_le _ _ (by rw [← hblk]; omega)
      exact hbt.trans hdvdu
    have hpairdvd : (List.insertionSort reqOrder reqs0).Pairwise
        (fun a b => b.block ∣ a.block) :=
      pairwise_imp_mem _
        (fun a ha b hb hab => reqOrder_block_dvd a b (hwf a ha) (hwf b hb) hab)
        (List.sorted_insertionSort reqOrder reqs0)
    have htight := placeLoop_tight primary.networkInt primary.broadcastInt
      _ _ _ _ hwf hpairdvd hdvdall hsum hloop
    exact ⟨List.insertionSort reqOrder reqs0, hwf, hsum,
      by rw [htight, List.nil_append]⟩

/-- C9: on every successful allocateVlsm call the records come back in
strictly increasing address order; each record's network address is past
the previous record's broadcast address (the cursor only moves forward). -/
theorem allocate_strictly_increasing (cidr : String) (hosts : List Int)
    (out : List SubnetRecord)
    (hall : allocateVlsm cidr hosts = Except.ok out) :
    out.Chain' (fun a b =>
      ipToInt a.network + a.total_addresses - 1 < ipToInt b.network) := by
  obtain ⟨primary, reqs0, hp, hb, hcap, hloop, hov⟩ := allocateVlsm_ok _ _ _ hall
  obtain ⟨reqs, hwf, hsum, hout⟩ := allocate_ok_tightPlace _ _ _ _ hall hp
  rw [hout]
  exact tightPlace_chain _ _ (jsToUint32_nonneg _) hsum hwf

theorem allocate_strictly_increasing_witness :
    List.Chain' (fun a b : SubnetRecord =>
      ipToInt a.network + a.total_addresses - 1 < ipToInt b.network)
      [subnetInfo 0 30 2, subnetInfo 4 30 2] :=
  allocate_strictly_increasing "0.0.0.0/24" [2, 2]
    [subnetInfo 0 30 2, subnetInfo 4 30 2] rfl

/-- C1: on every successful allocateVlsm call, every returned record's
address range lies within the primary range (at or above the unsigned
primary network start address, at or below the primary broadcast), and
the ranges of any two distinct records are disjoint. -/
theorem allocate_within_primary_disjoint (cidr : String) (hosts : List Int)
    (out : List SubnetRecord) (primary : ParsedCidr)
    (hall : allocateVlsm cidr hosts = Except.ok out)
    (hp : parseCidr cidr = Except.ok primary) :
    (∀ rec ∈ out, jsToUint32 primary.networkInt ≤ ipToInt rec.network ∧
      ipToInt rec.network + rec.total_addresses - 1 ≤ primary.broadcastInt) ∧
    out.Pairwise (fun a b =>
      ipToInt a.network + a.total_addresses - 1 < ipToInt b.network ∨
      ipToInt b.network + b.total_addresses - 1 < ipToInt a.network) := by
  obtain ⟨primary', reqs0, hp', hb, hcap, hloop, hov⟩ := allocateVlsm_ok _ _ _ hall
  rw [hp] at hp'
  injection hp' with hpe
  subst hpe
  refine ⟨?_, (overlapFree_pairwise out).mp hov⟩
  intro rec hrec
  constructor
  · obtain ⟨reqs, hwfr, hsum, hout⟩ := allocate_ok_tightPlace _ _ _ _ hall hp
    rw [hout] at hrec
    exact tightPlace_mem_ge reqs _ (jsToUint32_nonneg _) hsum hwfr rec hrec
  · have hwf : ∀ r ∈ List.insertionSort reqOrder reqs0, ReqWF r := fun r hr =>
      buildReqs_wf _ _ hb r ((List.perm_insertionSort reqOrder reqs0).subset hr)
    obtain ⟨pairs, hout, hsnd, hq⟩ := placeLoop_spec _ _ _ _ _ _ hwf hloop
    rw [hout, List.nil_append] at hrec
    obtain ⟨q, hqm, rfl⟩ := List.mem_map.mp hrec
    obtain ⟨h0, hub, hps, hpe2⟩ := hq q hqm
    have hwfq : ReqWF q.2 := hwf q.2 (hsnd ▸ List.mem_map_of_mem Prod.snd hqm)
    obtain ⟨hq0, hq32, hq1, _, _⟩ := ReqWF_bounds q.2 hwfq
    obtain ⟨_, _, hblk⟩ := hwfq
    rw [subnetInfo_network, subnetInfo_total, ← hblk]
    rw [ipToInt_intToIp q.1 h0 (by omega)]
    omega

theorem allocate_within_primary_disjoint_witness :
    jsToUint32 (0 : Int) ≤ ipToInt (subnetInfo 0 32 1).network ∧
    ipToInt (subnetInfo 0 32 1).network +
      (subnetInfo 0 32 1).total_addresses - 1 ≤ 3 :=
  (allocate_within_primary_disjoint "0.0.0.0/30" [1] [subnetInfo 0 32 1]
    ⟨0, some 30, some 4, 3⟩ rfl rfl).1 (subnetInfo 0 32 1)
    (List.mem_singleton_self _)
